import Mathlib

set_option linter.unusedVariables false

/-!
Shallow embedding of the forward-demodulation core of a Vampire-class
saturation prover, together with the library shims (Lib/Set.hpp), the
SMT formula builder (Shell/SMTFormula.cpp), the index-manager pairing
discipline and the saturation driver result type.

Terms are first-order: a variable or an applied function symbol with a
list of argument terms (Kernel term model, spec section 3).  Sorts are
themselves represented as terms so that the polymorphic sort-matching
step of forward demodulation can be expressed.
-/

inductive Term where
  | var : Nat → Term
  | app : Nat → List Term → Term

mutual

def Term.beq : Term → Term → Bool
  | .var a, .var b => a == b
  | .app f as, .app g bs => f == g && Term.beqList as bs
  | _, _ => false

def Term.beqList : List Term → List Term → Bool
  | [], [] => true
  | a :: as, b :: bs => Term.beq a b && Term.beqList as bs
  | _, _ => false

end

mutual

theorem Term.beq_iff : ∀ a b : Term, Term.beq a b = true ↔ a = b
  | .var a, .var b => by simp [Term.beq]
  | .var a, .app g bs => by simp [Term.beq]
  | .app f as, .var b => by simp [Term.beq]
  | .app f as, .app g bs => by
    simp [Term.beq, Term.beqList_iff as bs]

theorem Term.beqList_iff : ∀ as bs : List Term, Term.beqList as bs = true ↔ as = bs
  | [], [] => by simp [Term.beqList]
  | [], _ :: _ => by simp [Term.beqList]
  | _ :: _, [] => by simp [Term.beqList]
  | a :: as, b :: bs => by
    simp [Term.beqList, Term.beq_iff a b, Term.beqList_iff as bs]

end

instance : DecidableEq Term := fun a b => decidable_of_iff _ (Term.beq_iff a b)

/-- Test whether a term is a variable (TermList::isVar). -/
def Term.isVar : Term → Bool
  | .var _ => true
  | .app _ _ => false

mutual

/-- Homomorphic application of an assignment of terms to variables; this is
the denotation of applying a substitution applicator below a term
(SubstApplicator / AppliedTerm). -/
def substApply (θ : Nat → Term) : Term → Term
  | .var v => θ v
  | .app f as => .app f (substApplyList θ as)

/-- Pointwise substApply on argument lists. -/
def substApplyList (θ : Nat → Term) : List Term → List Term
  | [] => []
  | a :: as => substApply θ a :: substApplyList θ as

end

mutual

theorem substApply_comp (θ₁ θ₂ : Nat → Term) : ∀ t : Term,
    substApply θ₂ (substApply θ₁ t) = substApply (fun v => substApply θ₂ (θ₁ v)) t
  | .var v => rfl
  | .app f as => by
    simp only [substApply, substApplyList_comp θ₁ θ₂ as]

theorem substApplyList_comp (θ₁ θ₂ : Nat → Term) : ∀ ts : List Term,
    substApplyList θ₂ (substApplyList θ₁ ts) = substApplyList (fun v => substApply θ₂ (θ₁ v)) ts
  | [] => rfl
  | a :: as => by
    simp only [substApplyList, substApply_comp θ₁ θ₂ a, substApplyList_comp θ₁ θ₂ as]

end

mutual

/-- All subterms of a term, the term itself included, in top-down
depth-first order. -/
def Term.subterms : Term → List Term
  | .var v => [.var v]
  | .app f as => .app f as :: Term.subtermsList as

/-- All subterms of the terms of a list, in order. -/
def Term.subtermsList : List Term → List Term
  | [] => []
  | t :: ts => Term.subterms t ++ Term.subtermsList ts

end

/-- Clause colours for proof splitting (spec section 3). -/
inductive Color where
  | left
  | right
  | transparent
deriving DecidableEq

/-- Literals: either an equality literal carrying its polarity, the sort of
its two argument sides and the two sides, or an ordinary predicate literal
carrying polarity, predicate symbol, argument terms and an answer-literal
marker (Kernel literal model, spec section 3). -/
inductive Lit where
  | eq : Bool → Term → Term → Term → Lit
  | pred : Bool → Nat → List Term → Bool → Lit

def Lit.beq : Lit → Lit → Bool
  | .eq p1 s1 a1 b1, .eq p2 s2 a2 b2 =>
    p1 == p2 && Term.beq s1 s2 && Term.beq a1 a2 && Term.beq b1 b2
  | .pred p1 n1 as1 an1, .pred p2 n2 as2 an2 =>
    p1 == p2 && n1 == n2 && Term.beqList as1 as2 && an1 == an2
  | _, _ => false

theorem litBeq_iff : ∀ a b : Lit, Lit.beq a b = true ↔ a = b
  | .eq p1 s1 a1 b1, .eq p2 s2 a2 b2 => by
    simp [Lit.beq, Term.beq_iff, and_assoc]
  | .eq _ _ _ _, .pred _ _ _ _ => by simp [Lit.beq]
  | .pred _ _ _ _, .eq _ _ _ _ => by simp [Lit.beq]
  | .pred p1 n1 as1 an1, .pred p2 n2 as2 an2 => by
    simp [Lit.beq, Term.beqList_iff, and_assoc]

instance : DecidableEq Lit := fun a b => decidable_of_iff _ (litBeq_iff a b)

/-- Whether a literal is an answer literal (Literal::isAnswerLiteral). -/
def Lit.isAnswerLiteral : Lit → Bool
  | .eq _ _ _ _ => false
  | .pred _ _ _ an => an

/-- Top-level argument terms of a literal; for an equality these are its
two sides. -/
def Lit.args : Lit → List Term
  | .eq _ _ a b => [a, b]
  | .pred _ _ as _ => as

/-- The n-th argument of a literal (Literal::nthArgument). -/
def Lit.nthArgument (l : Lit) (n : Nat) : Term :=
  (l.args).getD n (.var 0)

mutual

/-- Clauses: an ordered list of literals, a colour and an inference record
(spec section 3). -/
inductive Clause where
  | mk : List Lit → Color → Inference → Clause

/-- Inference records: an input clause identifier, or the
FORWARD_DEMODULATION simplifying inference with its two parents
(SimplifyingInference2). -/
inductive Inference where
  | input : Nat → Inference
  | forwardDemodulation : Clause → Clause → Inference

end

def Clause.lits : Clause → List Lit
  | .mk ls _ _ => ls

def Clause.color : Clause → Color
  | .mk _ c _ => c

def Clause.inf : Clause → Inference
  | .mk _ _ i => i

/-- Length of a clause (Clause::length). -/
def Clause.length (c : Clause) : Nat := c.lits.length

/-- Term-ordering comparison results (spec section 3: Ordering result). -/
inductive Cmp where
  | LESS
  | GREATER
  | EQUAL
  | INCOMPARABLE
deriving DecidableEq

/-- The configured term ordering, exposing the two entry points forward
demodulation uses: the boolean isGreater check and the cached equality
argument order getEqualityArgumentOrder (spec section 4.1). -/
structure TermOrdering where
  isGreater : Term → Term → Bool
  geao : Term → Term → Cmp

/-- Ordering::getEqualityArgumentOrder on a literal: the cached comparison
of the two sides of an equality literal. -/
def litArgOrder (o : TermOrdering) : Lit → Cmp
  | .eq _ _ a b => o.geao a b
  | .pred _ _ _ _ => .INCOMPARABLE

/-- Modelled from the spec: ColorHelper::compatible (ColorHelper.hpp is not
among the sources); two colours are compatible when at most one is
non-transparent, unless they are identical. -/
def colorCompatible (c1 c2 : Color) : Bool :=
  c1 == c2 || c1 == .transparent || c2 == .transparent

/-- Modelled from the spec: the colour of a derived clause combines the
parent colours (the Clause constructor is not among the sources); no claim
depends on this value. -/
def combineColors (c1 c2 : Color) : Color :=
  if c1 = .transparent then c2 else c1

/-- Modelled from the spec: EqHelper::getOtherEqualitySide (EqHelper.hpp is
not among the sources); given an equality literal and one of its sides,
return the other side. -/
def getOtherEqualitySide : Lit → Term → Term
  | .eq _ _ a b, lhs => if lhs = a then b else a
  | .pred _ _ _ _, lhs => lhs

/-- SortHelper::getEqualityArgumentSort: the sort annotation carried by an
equality literal. -/
def getEqualityArgumentSort : Lit → Term
  | .eq _ s _ _ => s
  | .pred _ _ _ _ => .var 0

mutual

/-- Modelled from the spec: EqHelper::replace (EqHelper.hpp is not among
the sources); replace every occurrence of a subterm by another term,
top-down, without descending into replaced occurrences. -/
def replaceTerm (srch rep : Term) : Term → Term
  | .var v => if Term.var v = srch then rep else .var v
  | .app f as => if Term.app f as = srch then rep else .app f (replaceTermList srch rep as)

/-- Pointwise replaceTerm on argument lists. -/
def replaceTermList (srch rep : Term) : List Term → List Term
  | [] => []
  | t :: ts => replaceTerm srch rep t :: replaceTermList srch rep ts

end

/-- Modelled from the spec: EqHelper::replace on a literal; the rewritten
literal keeps polarity, predicate and sort and has the subterm replaced in
every argument. -/
def replaceLit (lit : Lit) (srch rep : Term) : Lit :=
  match lit with
  | .eq p s a b => .eq p s (replaceTerm srch rep a) (replaceTerm srch rep b)
  | .pred p n as an => .pred p n (replaceTermList srch rep as) an

/-- Modelled from the spec: EqHelper::isEqTautology; a positive equality
literal whose two sides are equal. -/
def isEqTautology : Lit → Bool
  | .eq pol _ a b => pol && a == b
  | .pred _ _ _ _ => false

/-- Lookup of a variable in an association list of bindings. -/
def lookupBinding : List (Nat × Term) → Nat → Option Term
  | [], _ => none
  | (w, t) :: rest, v => if w = v then some t else lookupBinding rest v

/-- The substitution function induced by a binding list: bound variables
map to their binding, unbound variables to themselves (RobSubstitution
apply on bank 0). -/
def vSubstFun (vs : List (Nat × Term)) : Nat → Term :=
  fun v =>
    match lookupBinding vs v with
    | some t => t
    | none => .var v

mutual

/-- Modelled from the spec: RobSubstitution::match restricted to one-sided
first-order matching (RobSubstitution.hpp is not among the sources); only
variables of the pattern may be bound, consistently with earlier bindings. -/
def matchTerm : Term → Term → List (Nat × Term) → Option (List (Nat × Term))
  | .var v, t, vs =>
    match lookupBinding vs v with
    | some u => if u = t then some vs else none
    | none => some ((v, t) :: vs)
  | .app _ _, .var _, _ => none
  | .app f as, .app g bs, vs => if f = g then matchTermList as bs vs else none

/-- Left-to-right matching of argument lists. -/
def matchTermList : List Term → List Term → List (Nat × Term) → Option (List (Nat × Term))
  | [], [], vs => some vs
  | a :: as, b :: bs, vs =>
    match matchTerm a b vs with
    | some vs1 => matchTermList as bs vs1
    | none => none
  | _, _, _ => none

end

/-- The sort of a term, read off the signature: the result sort of the head
symbol for an applied term, the declared variable sort otherwise
(TypedTermList::sort). -/
def sortOfTerm (funSort : Nat → Term) (varSort : Nat → Term) : Term → Term
  | .var v => varSort v
  | .app f _ => funSort f

/-- One hit of the DEMODULATION_LHS index for a queried term: the unit
equality clause, its single literal, the indexed side of the equality and
the matching substitution restricted to bound result variables
(TermQueryResult with ResultSubstitution::applyToBoundResult). -/
structure Hit where
  clause : Clause
  lit : Lit
  term : Term
  unifier : Nat → Term

/-- The state forward demodulation reads: the configured ordering, the
demodulation index, the two strategy flags read in attach, the two
DemodulationHelper entry points (DemodulationHelper.cpp is not among the
sources, so they stay abstract), and the sort signature. -/
structure FDConfig where
  ord : TermOrdering
  index : Term → List Hit
  preorderedOnly : Bool
  encompassing : Bool
  redundancyCheckNeededForPremise : Clause → Lit → Term → Bool
  isPremiseRedundant : Clause → Lit → Term → Term → Term → (Nat → Term) → Bool
  funSort : Nat → Term
  varSort : Nat → Term

/-- The outcome of a successful ForwardDemodulationImpl::perform call: the
replacement output parameter (none encodes the null replacement of the
equality-tautology branch), the premises iterator contents, and the data of
the consumed rewrite (equality clause, rewritten literal, redex, instantiated
right-hand side, whether the equality was pre-ordered). -/
structure FDResult where
  replacement : Option Clause
  premises : List Clause
  eqClause : Clause
  lit : Lit
  trm : Term
  rhsS : Term
  preordered : Bool

/-- Auxiliary sort matching: the lines 143 to 151 of
ForwardDemodulation.cpp; for a variable left-hand side the equality sort is
matched against the sort of the queried term, otherwise the auxiliary
substitution stays empty. -/
def demodSortMatch (cfg : FDConfig) (hit : Hit) (trm : Term) : Option (List (Nat × Term)) :=
  if hit.term.isVar then
    matchTerm (getEqualityArgumentSort hit.lit) (sortOfTerm cfg.funSort cfg.varSort trm) []
  else some []

/-- The applicator of ForwardDemodulation.cpp lines 56 to 69 and 170 to
172: the result substitution, composed with the auxiliary sort
substitution when the left-hand side is a variable. -/
def demodApplicator (hit : Hit) (vs : List (Nat × Term)) : Nat → Term :=
  if hit.term.isVar then fun v => substApply (vSubstFun vs) (hit.unifier v)
  else hit.unifier

/-- The instantiated right-hand side of ForwardDemodulation.cpp lines 196
to 199: the result substitution applied to the right-hand side, then the
auxiliary sort substitution when the left-hand side is a variable. -/
def demodRhsS (hit : Hit) (vs : List (Nat × Term)) (rhs : Term) : Term :=
  let rhsS0 := substApply hit.unifier rhs
  if hit.term.isVar then substApply (vSubstFun vs) rhsS0 else rhsS0

/-- The two-step computation of the instantiated right-hand side agrees
with applying the composed applicator below the right-hand side, which is
what the lazy AppliedTerm of the ordering check denotes. -/
theorem demodRhsS_eq (hit : Hit) (vs : List (Nat × Term)) (rhs : Term) :
    demodRhsS hit vs rhs = substApply (demodApplicator hit vs) rhs := by
  unfold demodRhsS demodApplicator
  by_cases hv : hit.term.isVar
  · rw [if_pos hv, if_pos hv, substApply_comp hit.unifier (vSubstFun vs)]
  · rw [if_neg hv, if_neg hv]

/-- The encompassing relaxation of ForwardDemodulation.cpp lines 184 to
194: under encompassing demodulation the premise-redundancy check is
dropped when the rewritten side of the equality literal is the strictly
smaller one. -/
def demodRedundancyCheck (cfg : FDConfig) (lit : Lit) (trm : Term) (redundancyCheck : Bool) : Bool :=
  if redundancyCheck && cfg.encompassing &&
      ((trm == lit.nthArgument 0 && litArgOrder cfg.ord lit == Cmp.LESS) ||
       (trm == lit.nthArgument 1 && litArgOrder cfg.ord lit == Cmp.GREATER))
  then false else redundancyCheck

/-- One iteration of the getGeneralizations loop of
ForwardDemodulationImpl::perform (ForwardDemodulation.cpp lines 126 to 230)
on a single hit: colour compatibility, sort matching for a variable
left-hand side, the ordering restriction, the encompassing relaxation, the
premise-redundancy check, and construction of the result. -/
def tryHit (cfg : FDConfig) (cl : Clause) (lit : Lit) (trm : Term)
    (redundancyCheck : Bool) (hit : Hit) : Option FDResult :=
  if !(colorCompatible cl.color hit.clause.color) then none else
  match demodSortMatch cfg hit trm with
  | none => none
  | some vs =>
    let rhs := getOtherEqualitySide hit.lit hit.term
    let argOrder := litArgOrder cfg.ord hit.lit
    let preordered : Bool := argOrder == Cmp.LESS || argOrder == Cmp.GREATER
    if !preordered && (cfg.preorderedOnly ||
        !(cfg.ord.isGreater trm (substApply (demodApplicator hit vs) rhs))) then
      none
    else
      let rhsS := demodRhsS hit vs rhs
      if demodRedundancyCheck cfg lit trm redundancyCheck &&
          !(cfg.isPremiseRedundant cl lit trm rhsS hit.term hit.unifier) then
        none
      else
        let resLit := replaceLit lit trm rhsS
        if isEqTautology resLit then
          some { replacement := none, premises := [hit.clause], eqClause := hit.clause,
                 lit := lit, trm := trm, rhsS := rhsS, preordered := preordered }
        else
          let res := Clause.mk (resLit :: cl.lits.filter (fun curr => !(curr == lit)))
            (combineColors cl.color hit.clause.color)
            (.forwardDemodulation cl hit.clause)
          some { replacement := some res, premises := [hit.clause], eqClause := hit.clause,
                 lit := lit, trm := trm, rhsS := rhsS, preordered := preordered }

/-- Scan of the hits returned by the index for one queried subterm: the
first successful hit wins, failed hits are skipped. -/
def tryHits (cfg : FDConfig) (cl : Clause) (lit : Lit) (trm : Term)
    (redundancyCheck : Bool) : List Hit → Option FDResult
  | [] => none
  | h :: hs =>
    match tryHit cfg cl lit trm redundancyCheck h with
    | some r => some r
    | none => tryHits cfg cl lit trm redundancyCheck hs

/-- Processing of one queried subterm: compute the premise-redundancy need
and scan the generalisation hits of the index. -/
def tryQueryTerm (cfg : FDConfig) (cl : Clause) (lit : Lit) (trm : Term) : Option FDResult :=
  tryHits cfg cl lit trm (cfg.redundancyCheckNeededForPremise cl lit trm) (cfg.index trm)

mutual

/-- Modelled from the spec together with ForwardDemodulation.cpp lines 100
to 121: the NonVariableNonTypeIterator traversal of one term under the
memoising attempted set (TermIterators.hpp and DHSet.hpp are not among the
sources).  A variable is not visited; a term already attempted is skipped
together with all of its subterms (it.right()); a new term is recorded as
attempted, emitted as a query, and its arguments are then visited.
Returns the queried terms in order and the grown attempted set. -/
def visitTerm (att : List Term) : Term → List Term × List Term
  | .var _ => ([], att)
  | .app f as =>
    if Term.app f as ∈ att then ([], att)
    else
      let p := visitList (Term.app f as :: att) as
      (Term.app f as :: p.1, p.2)

/-- Traversal of a list of terms, threading the attempted set left to
right. -/
def visitList (att : List Term) : List Term → List Term × List Term
  | [] => ([], att)
  | t :: ts =>
    let p := visitTerm att t
    let q := visitList p.2 ts
    (p.1 ++ q.1, q.2)

end

/-- The sequence of index queries of one perform call: non-answer literals
in clause order, their non-variable subterms in iterator order, under the
one attempted set shared by the whole call (the attempted set evolves
independently of the hit outcomes, so the trace lists the queries of the
run in which no hit succeeds; an early return consumes a prefix). -/
def queryTraceLits (att : List Term) : List Lit → List (Lit × Term)
  | [] => []
  | lit :: ls =>
    if lit.isAnswerLiteral then queryTraceLits att ls
    else
      let p := visitList att lit.args
      p.1.map (fun t => (lit, t)) ++ queryTraceLits p.2 ls

/-- The queries of ForwardDemodulationImpl::perform on a clause, starting
from the reset attempted set. -/
def queryTrace (cl : Clause) : List (Lit × Term) :=
  queryTraceLits [] cl.lits

/-- Scan of the query trace: the first query with a successful hit ends the
call. -/
def performFromTrace (cfg : FDConfig) (cl : Clause) : List (Lit × Term) → Option FDResult
  | [] => none
  | (lit, trm) :: rest =>
    match tryQueryTerm cfg cl lit trm with
    | some r => some r
    | none => performFromTrace cfg cl rest

/-- ForwardDemodulationImpl::perform (ForwardDemodulation.cpp lines 89 to
235): some result when the function returns true, none when it returns
false with the output parameters untouched. -/
def perform (cfg : FDConfig) (cl : Clause) : Option FDResult :=
  performFromTrace cfg cl (queryTrace cl)

mutual

theorem visitTerm_inv : ∀ (t : Term) (att : List Term),
    (visitTerm att t).1.Nodup ∧
    (∀ q ∈ (visitTerm att t).1,
      q ∉ att ∧ q ∈ (visitTerm att t).2 ∧ q.isVar = false ∧ q ∈ t.subterms) ∧
    (∀ x ∈ att, x ∈ (visitTerm att t).2)
  | .var v, att => by
    simp [visitTerm]
  | .app f as, att => by
    by_cases hmem : Term.app f as ∈ att
    · simp [visitTerm, hmem]
    · obtain ⟨pnd, pmem, patt⟩ := visitList_inv as (Term.app f as :: att)
      simp only [visitTerm, if_neg hmem]
      refine ⟨?_, ?_, ?_⟩
      · refine List.nodup_cons.mpr ⟨?_, pnd⟩
        intro hc
        exact (pmem _ hc).1 (List.mem_cons_self _ _)
      · intro q hq
        rcases List.mem_cons.mp hq with rfl | hq2
        · refine ⟨hmem, patt _ (List.mem_cons_self _ _), rfl, ?_⟩
          simp [Term.subterms]
        · obtain ⟨hnotin, hin2, hnv, hsub⟩ := pmem _ hq2
          refine ⟨fun hc => hnotin (List.mem_cons_of_mem _ hc), hin2, hnv, ?_⟩
          simp only [Term.subterms, List.mem_cons]
          exact Or.inr hsub
      · intro x hx
        exact patt _ (List.mem_cons_of_mem _ hx)

theorem visitList_inv : ∀ (ts : List Term) (att : List Term),
    (visitList att ts).1.Nodup ∧
    (∀ q ∈ (visitList att ts).1,
      q ∉ att ∧ q ∈ (visitList att ts).2 ∧ q.isVar = false ∧ q ∈ Term.subtermsList ts) ∧
    (∀ x ∈ att, x ∈ (visitList att ts).2)
  | [], att => by
    simp [visitList]
  | t :: ts, att => by
    obtain ⟨pnd, pmem, patt⟩ := visitTerm_inv t att
    obtain ⟨qnd, qmem, qatt⟩ := visitList_inv ts (visitTerm att t).2
    simp only [visitList]
    refine ⟨?_, ?_, ?_⟩
    · refine List.Nodup.append pnd qnd ?_
      intro x hxp hxq
      exact (qmem _ hxq).1 ((pmem _ hxp).2.1)
    · intro q hq
      rcases List.mem_append.mp hq with hq1 | hq2
      · obtain ⟨hnotin, hin2, hnv, hsub⟩ := pmem _ hq1
        refine ⟨hnotin, qatt _ hin2, hnv, ?_⟩
        simp only [Term.subtermsList, List.mem_append]
        exact Or.inl hsub
      · obtain ⟨hnotin, hin2, hnv, hsub⟩ := qmem _ hq2
        refine ⟨fun hc => hnotin (patt _ hc), hin2, hnv, ?_⟩
        simp only [Term.subtermsList, List.mem_append]
        exact Or.inr hsub
    · intro x hx
      exact qatt _ (patt _ hx)

end

theorem queryTraceLits_inv : ∀ (ls : List Lit) (att : List Term),
    ((queryTraceLits att ls).map Prod.snd).Nodup ∧
    (∀ p ∈ queryTraceLits att ls,
      p.2 ∉ att ∧ p.1 ∈ ls ∧ p.1.isAnswerLiteral = false ∧
      p.2.isVar = false ∧ p.2 ∈ Term.subtermsList p.1.args) := by
  intro ls
  induction ls with
  | nil => intro att; simp [queryTraceLits]
  | cons lit ls ih =>
    intro att
    by_cases hans : lit.isAnswerLiteral
    · obtain ⟨ihnd, ihmem⟩ := ih att
      simp only [queryTraceLits, if_pos hans]
      refine ⟨ihnd, ?_⟩
      intro p hp
      obtain ⟨h1, h2, h3, h4, h5⟩ := ihmem p hp
      exact ⟨h1, List.mem_cons_of_mem _ h2, h3, h4, h5⟩
    · obtain ⟨vnd, vmem, vatt⟩ := visitList_inv lit.args att
      obtain ⟨ihnd, ihmem⟩ := ih (visitList att lit.args).2
      simp only [queryTraceLits, if_neg hans]
      refine ⟨?_, ?_⟩
      · rw [List.map_append, List.map_map]
        refine List.Nodup.append ?_ ihnd ?_
        · simpa using vnd
        · intro x hx1 hx2
          simp only [List.mem_map, Function.comp] at hx1
          obtain ⟨q, hq, rfl⟩ := hx1
          simp only [List.mem_map] at hx2
          obtain ⟨pr, hpr, hsnd⟩ := hx2
          have := (ihmem pr hpr).1
          rw [hsnd] at this
          exact this ((vmem _ hq).2.1)
      · intro p hp
        rcases List.mem_append.mp hp with hp1 | hp2
        · simp only [List.mem_map] at hp1
          obtain ⟨q, hq, rfl⟩ := hp1
          obtain ⟨hnotin, hin2, hnv, hsub⟩ := vmem _ hq
          exact ⟨hnotin, List.mem_cons_self _ _, Bool.eq_false_iff.mpr hans, hnv, hsub⟩
        · obtain ⟨h1, h2, h3, h4, h5⟩ := ihmem p hp2
          exact ⟨fun hc => h1 (vatt _ hc), List.mem_cons_of_mem _ h2, h3, h4, h5⟩

/-- C4: within one perform call, every distinct non-variable subterm of the
non-answer literals of the clause is queried against the demodulation index
at most once (the query trace has no duplicate term), every query stems
from a non-answer literal of the clause and is a non-variable subterm of
it, so answer literals are never visited. -/
theorem forward_demodulation_queries_memoised (cl : Clause) :
    ((queryTrace cl).map Prod.snd).Nodup ∧
    ∀ p ∈ queryTrace cl, p.1 ∈ cl.lits ∧ p.1.isAnswerLiteral = false ∧
      p.2.isVar = false ∧ p.2 ∈ Term.subtermsList p.1.args := by
  obtain ⟨hnd, hmem⟩ := queryTraceLits_inv cl.lits []
  refine ⟨hnd, ?_⟩
  intro p hp
  obtain ⟨_, h2, h3, h4, h5⟩ := hmem p hp
  exact ⟨h2, h3, h4, h5⟩

theorem tryHits_some (cfg : FDConfig) (cl : Clause) (lit : Lit) (trm : Term)
    (rc : Bool) : ∀ (hs : List Hit) (r : FDResult),
    tryHits cfg cl lit trm rc hs = some r →
    ∃ h2 ∈ hs, tryHit cfg cl lit trm rc h2 = some r := by
  intro hs
  induction hs with
  | nil => intro r h; simp [tryHits] at h
  | cons h0 hs ih =>
    intro r h
    simp only [tryHits] at h
    rcases hh : tryHit cfg cl lit trm rc h0 with _ | r0
    · rw [hh] at h
      obtain ⟨h2, hm, hsome⟩ := ih r h
      exact ⟨h2, List.mem_cons_of_mem _ hm, hsome⟩
    · rw [hh] at h
      cases h
      exact ⟨h0, List.mem_cons_self _ _, hh⟩

theorem tryHits_none (cfg : FDConfig) (cl : Clause) (lit : Lit) (trm : Term)
    (rc : Bool) : ∀ (hs : List Hit),
    (∀ h2 ∈ hs, tryHit cfg cl lit trm rc h2 = none) →
    tryHits cfg cl lit trm rc hs = none := by
  intro hs
  induction hs with
  | nil => intro _; simp [tryHits]
  | cons h0 hs ih =>
    intro hall
    simp only [tryHits, hall h0 (List.mem_cons_self _ _)]
    exact ih (fun h2 hm => hall h2 (List.mem_cons_of_mem _ hm))

theorem performFromTrace_some (cfg : FDConfig) (cl : Clause) :
    ∀ (tr : List (Lit × Term)) (r : FDResult),
    performFromTrace cfg cl tr = some r →
    ∃ lit trm, (lit, trm) ∈ tr ∧ tryQueryTerm cfg cl lit trm = some r := by
  intro tr
  induction tr with
  | nil => intro r h; simp [performFromTrace] at h
  | cons p tr ih =>
    intro r h
    obtain ⟨lit, trm⟩ := p
    simp only [performFromTrace] at h
    rcases hq : tryQueryTerm cfg cl lit trm with _ | r0
    · rw [hq] at h
      obtain ⟨lit2, trm2, hm, hsome⟩ := ih r h
      exact ⟨lit2, trm2, List.mem_cons_of_mem _ hm, hsome⟩
    · rw [hq] at h
      cases h
      exact ⟨lit, trm, List.mem_cons_self _ _, hq⟩

theorem perform_some (cfg : FDConfig) (cl : Clause) (r : FDResult)
    (h : perform cfg cl = some r) :
    ∃ lit trm hit, (lit, trm) ∈ queryTrace cl ∧ hit ∈ cfg.index trm ∧
      tryHit cfg cl lit trm (cfg.redundancyCheckNeededForPremise cl lit trm) hit = some r := by
  obtain ⟨lit, trm, hm, hq⟩ := performFromTrace_some cfg cl (queryTrace cl) r h
  obtain ⟨hit, hmem, hsome⟩ := tryHits_some cfg cl lit trm _ _ r hq
  exact ⟨lit, trm, hit, hm, hmem, hsome⟩

theorem tryHit_props (cfg : FDConfig) (cl : Clause) (lit : Lit) (trm : Term)
    (rc : Bool) (hit : Hit) (r : FDResult)
    (h : tryHit cfg cl lit trm rc hit = some r) :
    r.lit = lit ∧ r.trm = trm ∧ r.eqClause = hit.clause ∧ r.premises = [hit.clause] ∧
    r.preordered = (litArgOrder cfg.ord hit.lit == Cmp.LESS ||
                    litArgOrder cfg.ord hit.lit == Cmp.GREATER) ∧
    (∃ vs, demodSortMatch cfg hit trm = some vs ∧
      r.rhsS = substApply (demodApplicator hit vs) (getOtherEqualitySide hit.lit hit.term) ∧
      (r.preordered = false → cfg.preorderedOnly = false ∧
        cfg.ord.isGreater trm
          (substApply (demodApplicator hit vs) (getOtherEqualitySide hit.lit hit.term)) = true)) ∧
    (r.replacement = none ↔ isEqTautology (replaceLit lit trm r.rhsS) = true) ∧
    (∀ res, r.replacement = some res →
      res = Clause.mk (replaceLit lit trm r.rhsS :: cl.lits.filter (fun curr => !(curr == lit)))
        (combineColors cl.color hit.clause.color) (Inference.forwardDemodulation cl hit.clause)) := by
  simp only [tryHit] at h
  split at h
  · exact absurd h (by simp)
  · split at h
    · exact absurd h (by simp)
    · rename_i vs hvs
      split at h
      · exact absurd h (by simp)
      · rename_i hord
        split at h
        · exact absurd h (by simp)
        · rename_i hred
          split at h
          · rename_i htaut
            injection h with h2
            subst h2
            refine ⟨rfl, rfl, rfl, rfl, rfl, ?_, ?_, ?_⟩
            · refine ⟨vs, hvs, demodRhsS_eq hit vs _, ?_⟩
              intro hpre
              simp only [FDResult.preordered] at hpre
              rw [hpre] at hord
              simp at hord
              exact hord
            · exact ⟨fun _ => htaut, fun _ => rfl⟩
            · intro res hres
              simp only [FDResult.replacement] at hres
              exact absurd hres (by simp)
          · rename_i htaut
            injection h with h2
            subst h2
            refine ⟨rfl, rfl, rfl, rfl, rfl, ?_, ?_, ?_⟩
            · refine ⟨vs, hvs, demodRhsS_eq hit vs _, ?_⟩
              intro hpre
              simp only [FDResult.preordered] at hpre
              rw [hpre] at hord
              simp at hord
              exact hord
            · constructor
              · intro hc; exact absurd hc (by simp)
              · intro hc
                simp only [FDResult.rhsS] at hc
                rw [hc] at htaut
                exact absurd rfl htaut
            · intro res hres
              simp only [FDResult.replacement] at hres
              injection hres with hres2
              rw [← hres2]

/-- Soundness of a DEMODULATION_LHS index hit for a queried term: the hit
literal is an equality, the indexed side is one of its two sides and is the
larger one whenever the cached argument order is oriented (the VDEBUG
assertion of ForwardDemodulation.cpp lines 156 to 165), and the stored
substitution instantiates the indexed side to the queried term (the index
returns generalisations). -/
def hitSound (cfg : FDConfig) (t : Term) (h : Hit) : Prop :=
  ∃ pol srt a b, h.lit = Lit.eq pol srt a b ∧ (h.term = a ∨ h.term = b) ∧
    (cfg.ord.geao a b = Cmp.GREATER → h.term = a) ∧
    (cfg.ord.geao a b = Cmp.LESS → h.term = b) ∧
    (∀ vs, demodSortMatch cfg h t = some vs →
      substApply (demodApplicator h vs) h.term = t)

/-- C1: every rewrite emitted by forward demodulation satisfies the
ordering restriction: when perform replaces the subterm t by the
instantiated right-hand side, t is greater than that right-hand side under
the configured ordering, both on the pre-ordered path (assuming the cached
argument order is stable under substitution) and on the runtime isGreater
path, and with the preorderedOnly flag set only pre-ordered equalities are
used. -/
theorem forward_demodulation_ordering_restriction (cfg : FDConfig) (cl : Clause)
    (Hg : ∀ a b θ, cfg.ord.geao a b = Cmp.GREATER →
      cfg.ord.isGreater (substApply θ a) (substApply θ b) = true)
    (Hl : ∀ a b θ, cfg.ord.geao a b = Cmp.LESS →
      cfg.ord.isGreater (substApply θ b) (substApply θ a) = true)
    (Hs : ∀ t h2, h2 ∈ cfg.index t → hitSound cfg t h2)
    (r : FDResult) (hp : perform cfg cl = some r) :
    cfg.ord.isGreater r.trm r.rhsS = true ∧
    (cfg.preorderedOnly = true → r.preordered = true) := by
  obtain ⟨lit, trm, hit, htr, hidx, hh⟩ := perform_some cfg cl r hp
  obtain ⟨hlit, htrm, heqc, hprem, hpre_eq, ⟨vs, hvs, hrhs, hrun⟩, _, _⟩ :=
    tryHit_props cfg cl lit trm _ hit r hh
  by_cases hpo : r.preordered = true
  · obtain ⟨pol, srt, a, b, hlit2, hside, hga, hgl, happt⟩ := Hs trm hit hidx
    have happ : substApply (demodApplicator hit vs) hit.term = trm := happt vs hvs
    have hpre2 : (cfg.ord.geao a b == Cmp.LESS || cfg.ord.geao a b == Cmp.GREATER) = true := by
      rw [hpo, hlit2] at hpre_eq
      simpa [litArgOrder] using hpre_eq.symm
    refine ⟨?_, fun _ => hpo⟩
    rw [htrm, hrhs, hlit2]
    rcases hgeq : cfg.ord.geao a b with _ | _ | _ | _
    · have hterm : hit.term = b := hgl hgeq
      by_cases h2 : hit.term = a
      · have hab : a = b := by rw [← h2, hterm]
        simp only [getOtherEqualitySide, if_pos h2]
        rw [← happ, hterm, ← hab]
        have := Hl a b (demodApplicator hit vs) hgeq
        rw [← hab] at this
        exact this
      · simp only [getOtherEqualitySide, if_neg h2]
        rw [← happ, hterm]
        exact Hl a b (demodApplicator hit vs) hgeq
    · have hterm : hit.term = a := hga hgeq
      simp only [getOtherEqualitySide, if_pos hterm]
      rw [← happ, hterm]
      exact Hg a b (demodApplicator hit vs) hgeq
    · rw [hgeq] at hpre2; simp at hpre2
    · rw [hgeq] at hpre2; simp at hpre2
  · have hpf : r.preordered = false := Bool.eq_false_iff.mpr hpo
    obtain ⟨hponly, hgt⟩ := hrun hpf
    refine ⟨?_, ?_⟩
    · rw [htrm, hrhs]
      exact hgt
    · intro hx
      rw [hponly] at hx
      exact absurd hx (by simp)

/-- C2: when perform succeeds with a non-tautological result, the
replacement clause is exactly the rewritten literal followed by every other
literal of the input clause unchanged, its inference record is
FORWARD_DEMODULATION with parents the input clause and the unit equality
clause, and the premises iterator holds exactly that one equality clause,
so exactly one hit is consumed per call. -/
theorem forward_demodulation_replacement_shape (cfg : FDConfig) (cl : Clause)
    (r : FDResult) (hp : perform cfg cl = some r)
    (res : Clause) (hres : r.replacement = some res) :
    res.lits = replaceLit r.lit r.trm r.rhsS :: cl.lits.filter (fun curr => !(curr == r.lit)) ∧
    res.inf = Inference.forwardDemodulation cl r.eqClause ∧
    r.premises = [r.eqClause] := by
  obtain ⟨lit, trm, hit, htr, hidx, hh⟩ := perform_some cfg cl r hp
  obtain ⟨hlit, htrm, heqc, hprem, hpre_eq, hex, hiff, hshape⟩ :=
    tryHit_props cfg cl lit trm _ hit r hh
  have hres2 := hshape res hres
  subst hres2
  refine ⟨?_, ?_, ?_⟩
  · rw [hlit, htrm, Clause.lits]
  · rw [Clause.inf, heqc]
  · rw [hprem, heqc]

/-- C3: when the rewritten literal is an equality tautology, perform
succeeds with premises the singleton unit-equality clause and without
assigning a replacement clause; the null replacement deletes the input
clause. -/
theorem forward_demodulation_eq_tautology_deletes (cfg : FDConfig) (cl : Clause)
    (r : FDResult) (hp : perform cfg cl = some r)
    (ht : isEqTautology (replaceLit r.lit r.trm r.rhsS) = true) :
    r.replacement = none ∧ r.premises = [r.eqClause] := by
  obtain ⟨lit, trm, hit, htr, hidx, hh⟩ := perform_some cfg cl r hp
  obtain ⟨hlit, htrm, heqc, hprem, hpre_eq, hex, hiff, hshape⟩ :=
    tryHit_props cfg cl lit trm _ hit r hh
  rw [hlit, htrm] at ht
  exact ⟨hiff.mpr ht, by rw [hprem, heqc]⟩

/-- C8: a failed demodulation hit is not an error: a hit with an
incompatible colour or a failed sort match produces no result, a failed hit
is skipped and the scan continues with the remaining candidates, and when
every hit of every queried subterm fails, perform returns none, the
embedding of returning false with the output parameters untouched. -/
theorem forward_demodulation_failures_skipped (cfg : FDConfig) (cl : Clause)
    (H : ∀ lit trm, (lit, trm) ∈ queryTrace cl →
      ∀ h2 ∈ cfg.index trm,
        tryHit cfg cl lit trm (cfg.redundancyCheckNeededForPremise cl lit trm) h2 = none) :
    perform cfg cl = none ∧
    (∀ lit trm rc h2 hs, tryHit cfg cl lit trm rc h2 = none →
      tryHits cfg cl lit trm rc (h2 :: hs) = tryHits cfg cl lit trm rc hs) ∧
    (∀ lit trm rc h2, colorCompatible cl.color h2.clause.color = false →
      tryHit cfg cl lit trm rc h2 = none) ∧
    (∀ lit trm rc h2, demodSortMatch cfg h2 trm = none →
      tryHit cfg cl lit trm rc h2 = none) := by
  refine ⟨?_, ?_, ?_, ?_⟩
  · unfold perform
    have H2 : ∀ (tr : List (Lit × Term)),
        (∀ p ∈ tr, tryQueryTerm cfg cl p.1 p.2 = none) →
        performFromTrace cfg cl tr = none := by
      intro tr
      induction tr with
      | nil => intro _; rfl
      | cons p tr ih =>
        intro hall
        obtain ⟨lit, trm⟩ := p
        simp only [performFromTrace, hall (lit, trm) (List.mem_cons_self _ _)]
        exact ih (fun q hq => hall q (List.mem_cons_of_mem _ hq))
    refine H2 _ ?_
    intro p hp
    exact tryHits_none cfg cl p.1 p.2 _ _ (H p.1 p.2 (by rwa [Prod.mk.eta]))
  · intro lit trm rc h2 hs hnone
    simp only [tryHits, hnone]
  · intro lit trm rc h2 hcc
    simp only [tryHit, hcc]
    rfl
  · intro lit trm rc h2 hsm
    unfold tryHit
    rw [hsm]
    split
    · rfl
    · rfl

/-- Constant a of the worked example. -/
def exA : Term := .app 0 []

/-- The term f(a) of the worked example. -/
def exFA : Term := .app 2 [exA]

/-- A ground sort constant for the worked example. -/
def exSort : Term := .app 9 []

/-- The unit equality literal f(a) = a. -/
def exEqLit : Lit := .eq true exSort exFA exA

/-- The unit equality clause of the worked example. -/
def exEqClause : Clause := .mk [exEqLit] .transparent (.input 0)

/-- The index hit for f(a): the unit clause, its literal, its left-hand
side and the identity result substitution. -/
def exHit : Hit := { clause := exEqClause, lit := exEqLit, term := exFA, unifier := fun v => .var v }

/-- The example index: generalisations of f(a) are the one hit. -/
def exIndex : Term → List Hit := fun t => if t = exFA then [exHit] else []

/-- A degenerate but well-formed ordering for the worked example. -/
def exOrd : TermOrdering := { isGreater := fun _ _ => true, geao := fun _ _ => .INCOMPARABLE }

/-- The example forward-demodulation configuration. -/
def exCfg : FDConfig :=
  { ord := exOrd, index := exIndex, preorderedOnly := false, encompassing := false,
    redundancyCheckNeededForPremise := fun _ _ _ => false,
    isPremiseRedundant := fun _ _ _ _ _ _ => true,
    funSort := fun _ => exSort, varSort := fun _ => exSort }

/-- The example candidate literal p(f(a)). -/
def exLit : Lit := .pred true 5 [exFA] false

/-- The example candidate clause with the single literal p(f(a)). -/
def exCl : Clause := .mk [exLit] .transparent (.input 1)

/-- The rewritten literal p(a). -/
def exResLit : Lit := .pred true 5 [exA] false

/-- The example replacement clause. -/
def exRes : Clause := .mk [exResLit] .transparent (.forwardDemodulation exCl exEqClause)

/-- The result record of perform on the example clause. -/
def exR : FDResult :=
  { replacement := some exRes, premises := [exEqClause], eqClause := exEqClause,
    lit := exLit, trm := exFA, rhsS := exA, preordered := false }

theorem exPerform : perform exCfg exCl = some exR := rfl

theorem exHitSound : ∀ t h2, h2 ∈ exCfg.index t → hitSound exCfg t h2 := by
  intro t h2 hmem
  have hmem2 : h2 ∈ exIndex t := hmem
  unfold exIndex at hmem2
  by_cases ht : t = exFA
  · rw [if_pos ht] at hmem2
    have h3 : h2 = exHit := List.mem_singleton.mp hmem2
    subst h3
    subst ht
    refine ⟨true, exSort, exFA, exA, rfl, Or.inl rfl, ?_, ?_, ?_⟩
    · intro hg; exact absurd hg (by decide)
    · intro hg; exact absurd hg (by decide)
    · intro vs hvs
      have h4 : demodSortMatch exCfg exHit exFA = some [] := rfl
      rw [h4] at hvs
      have h5 : vs = [] := (Option.some.inj hvs).symm
      subst h5
      rfl
  · rw [if_neg ht] at hmem2
    exact absurd hmem2 (List.not_mem_nil _)

theorem forward_demodulation_ordering_restriction_witness :
    exCfg.ord.isGreater exR.trm exR.rhsS = true ∧
    (exCfg.preorderedOnly = true → exR.preordered = true) :=
  forward_demodulation_ordering_restriction exCfg exCl
    (fun _ _ _ _ => rfl) (fun _ _ _ _ => rfl) exHitSound exR exPerform

theorem forward_demodulation_replacement_shape_witness :
    exRes.lits = replaceLit exR.lit exR.trm exR.rhsS ::
      exCl.lits.filter (fun curr => !(curr == exR.lit)) ∧
    exRes.inf = Inference.forwardDemodulation exCl exR.eqClause ∧
    exR.premises = [exR.eqClause] :=
  forward_demodulation_replacement_shape exCfg exCl exR exPerform exRes rfl

/-- The example clause whose single literal is the equality f(a) = a
itself; rewriting f(a) to a inside it produces the tautology a = a. -/
def exCl2 : Clause := .mk [exEqLit] .transparent (.input 2)

/-- The result record of perform on the tautology-producing clause. -/
def exR2 : FDResult :=
  { replacement := none, premises := [exEqClause], eqClause := exEqClause,
    lit := exEqLit, trm := exFA, rhsS := exA, preordered := false }

theorem exPerform2 : perform exCfg exCl2 = some exR2 := rfl

theorem forward_demodulation_eq_tautology_deletes_witness :
    exR2.replacement = none ∧ exR2.premises = [exR2.eqClause] :=
  forward_demodulation_eq_tautology_deletes exCfg exCl2 exR2 exPerform2 rfl

/-- The example configuration with an empty index: every query fails. -/
def exCfgEmpty : FDConfig :=
  { exCfg with index := fun _ => [] }

theorem forward_demodulation_failures_skipped_witness :
    perform exCfgEmpty exCl = none ∧
    (∀ lit trm rc h2 hs, tryHit exCfgEmpty exCl lit trm rc h2 = none →
      tryHits exCfgEmpty exCl lit trm rc (h2 :: hs) = tryHits exCfgEmpty exCl lit trm rc hs) ∧
    (∀ lit trm rc h2, colorCompatible exCl.color h2.clause.color = false →
      tryHit exCfgEmpty exCl lit trm rc h2 = none) ∧
    (∀ lit trm rc h2, demodSortMatch exCfgEmpty h2 trm = none →
      tryHit exCfgEmpty exCl lit trm rc h2 = none) :=
  forward_demodulation_failures_skipped exCfgEmpty exCl
    (fun lit trm _ h2 hmem => absurd hmem (List.not_mem_nil _))

/-- Index kinds requested from the index manager; the demodulation code
tree is the one forward demodulation uses (Indexing/IndexManager.hpp kinds,
spec section 3). -/
inductive IndexKind where
  | DEMODULATION_LHS_CODE_TREE
  | other : Nat → IndexKind
deriving DecidableEq

/-- The index manager state: the reference count held for each index kind
(spec section 4.4). -/
structure IndexManager where
  refCount : IndexKind → Nat

/-- IndexManager::request: increment the refcount of the kind and hand out
the lazily created shared index, modelled by its kind. -/
def IndexManager.request (m : IndexManager) (k : IndexKind) : IndexManager × IndexKind :=
  ({ refCount := fun j => if j = k then m.refCount j + 1 else m.refCount j }, k)

/-- IndexManager::release: decrement the refcount of the kind. -/
def IndexManager.release (m : IndexManager) (k : IndexKind) : IndexManager :=
  { refCount := fun j => if j = k then m.refCount j - 1 else m.refCount j }

/-- The forwardDemodulation strategy option (Options::Demodulation). -/
inductive DemodulationOption where
  | OFF
  | PREORDERED
  | ALL
deriving DecidableEq

/-- The demodulationRedundancyCheck strategy option
(Options::DemodulationRedundancyCheck). -/
inductive DRCOption where
  | OFF
  | ENCOMPASS
  | ON
deriving DecidableEq

/-- The options the attach code reads. -/
structure EngineOptions where
  forwardDemodulation : DemodulationOption
  demodulationRedundancyCheck : DRCOption

/-- The attach-relevant state of the ForwardDemodulation engine: the stored
index pointer and the two cached strategy flags. -/
structure FwdDemodEngine where
  index : Option IndexKind
  preorderedOnly : Bool
  encompassing : Bool

/-- ForwardDemodulation::attach (ForwardDemodulation.cpp lines 71 to 80):
request DEMODULATION_LHS_CODE_TREE exactly once, store the returned index
and read the two strategy flags from the options. -/
def ForwardDemodulation.attach (opts : EngineOptions) (e : FwdDemodEngine)
    (m : IndexManager) : FwdDemodEngine × IndexManager :=
  let rq := m.request .DEMODULATION_LHS_CODE_TREE
  ({ index := some rq.2,
     preorderedOnly := opts.forwardDemodulation == .PREORDERED,
     encompassing := opts.demodulationRedundancyCheck == .ENCOMPASS }, rq.1)

/-- ForwardDemodulation::detach (ForwardDemodulation.cpp lines 82 to 87):
clear the stored index and release DEMODULATION_LHS_CODE_TREE exactly
once. -/
def ForwardDemodulation.detach (e : FwdDemodEngine) (m : IndexManager) :
    FwdDemodEngine × IndexManager :=
  ({ e with index := none }, m.release .DEMODULATION_LHS_CODE_TREE)

/-- C5: over the attached lifetime of the forward-demodulation engine
every index request is paired with exactly one release: attach performs
exactly one request of DEMODULATION_LHS_CODE_TREE (the refcount of that
kind rises by one and no other refcount changes) and stores the index;
detach performs exactly one release of the same kind (every refcount
returns to its initial value) and clears the stored pointer. -/
theorem forward_demodulation_attach_detach_paired (opts : EngineOptions)
    (e : FwdDemodEngine) (m : IndexManager) :
    (∀ k, (ForwardDemodulation.attach opts e m).2.refCount k =
      m.refCount k + (if k = .DEMODULATION_LHS_CODE_TREE then 1 else 0)) ∧
    (ForwardDemodulation.attach opts e m).1.index = some .DEMODULATION_LHS_CODE_TREE ∧
    (∀ k, (ForwardDemodulation.detach (ForwardDemodulation.attach opts e m).1
        (ForwardDemodulation.attach opts e m).2).2.refCount k = m.refCount k) ∧
    (ForwardDemodulation.detach (ForwardDemodulation.attach opts e m).1
        (ForwardDemodulation.attach opts e m).2).1.index = none := by
  refine ⟨?_, rfl, ?_, rfl⟩
  · intro k
    by_cases hk : k = IndexKind.DEMODULATION_LHS_CODE_TREE
    · simp [ForwardDemodulation.attach, IndexManager.request, hk]
    · simp [ForwardDemodulation.attach, IndexManager.request, hk]
  · intro k
    by_cases hk : k = IndexKind.DEMODULATION_LHS_CODE_TREE
    · simp [ForwardDemodulation.attach, ForwardDemodulation.detach,
        IndexManager.request, IndexManager.release, hk]
    · simp [ForwardDemodulation.attach, ForwardDemodulation.detach,
        IndexManager.request, IndexManager.release, hk]

/-- Lib::Set (Lib/Set.hpp): a hash set backed by std::unordered_set,
modelled by the list of its stored elements. -/
structure Lib.Set (α : Type) where
  standard_set : List α

/-- The freshly constructed empty set (Set::Set). -/
def Lib.Set.empty (α : Type) : Lib.Set α := ⟨[]⟩

/-- Set::contains (Lib/Set.hpp lines 96 to 99). -/
def Lib.Set.contains {α : Type} [DecidableEq α] (s : Lib.Set α) (v : α) : Bool :=
  decide (v ∈ s.standard_set)

/-- Set::size (Lib/Set.hpp lines 158 to 161). -/
def Lib.Set.size {α : Type} (s : Lib.Set α) : Nat :=
  s.standard_set.length

/-- Set::rawFindOrInsert (Lib/Set.hpp lines 119 to 123): the body returns
standard_set.begin() (modelled as the first stored element, if any) without
invoking create, consulting hashCode or isCorrectVal, mutating the set, or
assigning inserted, which therefore passes through unchanged. -/
def Lib.Set.rawFindOrInsert {α : Type} (s : Lib.Set α) (create : Unit → α)
    (hashCode : Nat) (isCorrectVal : α → Bool) (inserted : Bool) :
    Lib.Set α × Option α × Bool :=
  (s, s.standard_set.head?, inserted)

/-- Set::insert (Lib/Set.hpp lines 137 to 146): delegates to
rawFindOrInsert with a closure moving the value, the hash code of the
value, an equality test against the value and a dummy inserted flag. -/
def Lib.Set.insert {α : Type} [DecidableEq α] (hash : α → Nat) (s : Lib.Set α)
    (v : α) : Lib.Set α × Option α :=
  let r := Lib.Set.rawFindOrInsert s (fun _ => v) (hash v) (fun u => decide (u = v)) false
  (r.1, r.2.1)

/-- C6: Set::rawFindOrInsert does not implement its documented
find-or-insert contract: its result is the unchanged set with its first
element and the untouched inserted flag for every create closure, hash
code and comparison closure, so Set::insert adds nothing, and after
insert(v) on an empty Set, contains(v) is false and size() is 0. -/
theorem set_rawFindOrInsert_broken (α : Type) [DecidableEq α] (hash : α → Nat) (v : α) :
    (∀ (s : Lib.Set α) (create : Unit → α) (hashCode : Nat)
        (isCorrectVal : α → Bool) (inserted : Bool),
      Lib.Set.rawFindOrInsert s create hashCode isCorrectVal inserted
        = (s, s.standard_set.head?, inserted)) ∧
    (Lib.Set.insert hash (Lib.Set.empty α) v).1.contains v = false ∧
    (Lib.Set.insert hash (Lib.Set.empty α) v).1.size = 0 := by
  refine ⟨fun _ _ _ _ _ => rfl, ?_, rfl⟩
  simp [Lib.Set.contains, Lib.Set.insert, Lib.Set.rawFindOrInsert, Lib.Set.empty]

/-- Set::Iterator (Lib/Set.hpp lines 204 to 235): holds a copy of the set
contents. -/
structure Lib.Set.Iterator (α : Type) where
  standard_set : List α

/-- The Iterator constructor copies the set contents. -/
def Lib.Set.iterator {α : Type} (s : Lib.Set α) : Lib.Set.Iterator α :=
  ⟨s.standard_set⟩

/-- Set::Iterator::hasNext (Lib/Set.hpp lines 218 to 221): returns false
unconditionally. -/
def Lib.Set.Iterator.hasNext {α : Type} (it : Lib.Set.Iterator α) : Bool :=
  false

/-- Set::Iterator::next (Lib/Set.hpp lines 228 to 231): returns begin() of
the copied contents. -/
def Lib.Set.Iterator.next {α : Type} (it : Lib.Set.Iterator α) : Option α :=
  it.standard_set.head?

/-- The elements observed by the idiomatic iteration loop (while hasNext,
take next), with fuel bounding the loop. -/
def Lib.Set.Iterator.collect {α : Type} (it : Lib.Set.Iterator α) : Nat → List α
  | 0 => []
  | fuel + 1 =>
    if it.hasNext then
      match it.next with
      | some v => v :: Lib.Set.Iterator.collect it fuel
      | none => []
    else []

/-- The stream output operator for sets (Lib/Set.hpp lines 244 to 255):
opening brace, the iterated elements separated by commas, closing brace. -/
def printSet {α : Type} (f : α → String) (s : Lib.Set α) (fuel : Nat) : String :=
  "\x7b " ++ String.intercalate ", " ((Lib.Set.iterator s).collect fuel |>.map f) ++ " \x7d"

/-- C10: for every Set, the iterator constructed from it reports hasNext
false regardless of the contents, so iteration enumerates no elements and
the stream output operator prints every Set exactly like the empty set,
even when size() is positive. -/
theorem set_iterator_always_empty (α : Type) (s : Lib.Set α) (f : α → String) (fuel : Nat) :
    (Lib.Set.iterator s).hasNext = false ∧
    (Lib.Set.iterator s).collect fuel = [] ∧
    printSet f s fuel = "\x7b  \x7d" ∧
    printSet f s fuel = printSet f (Lib.Set.empty α) fuel := by
  refine ⟨rfl, ?_, ?_, ?_⟩
  · cases fuel <;> rfl
  · cases fuel <;> rfl
  · cases fuel <;> rfl

/-- SMTFormula (Shell/SMTFormula.cpp): a formula is its SMT-LIB text. -/
structure SMTFormula where
  val : String
deriving DecidableEq

/-- Modelled from the spec: SMTFormula.hpp is not among the sources; the
members getTrue, getFalse, isTrue and isFalse are reconstructed from their
uses in SMTFormula.cpp, where getTrue and getFalse denote the formulas
printed as true and false and isTrue and isFalse recognise exactly them. -/
def SMTFormula.getTrue : SMTFormula := ⟨"true"⟩

/-- The false formula; see getTrue. -/
def SMTFormula.getFalse : SMTFormula := ⟨"false"⟩

/-- Whether a formula is the true formula; see getTrue. -/
def SMTFormula.isTrue (f : SMTFormula) : Bool := decide (f.val = "true")

/-- Whether a formula is the false formula; see getTrue. -/
def SMTFormula.isFalse (f : SMTFormula) : Bool := decide (f.val = "false")

/-- SMTFormula::conjunction (SMTFormula.cpp lines 49 to 57): a true
argument is dropped, a false argument annihilates to getFalse, otherwise
the and formula is built. -/
def SMTFormula.conjunction (f1 f2 : SMTFormula) : SMTFormula :=
  if f1.isTrue then f2
  else if f2.isTrue then f1
  else if f1.isFalse || f2.isFalse then SMTFormula.getFalse
  else ⟨"(and " ++ f1.val ++ " " ++ f2.val ++ ")"⟩

/-- SMTFormula::disjunction (SMTFormula.cpp lines 59 to 67): a false
argument is dropped; the line for a true argument reads
if(f1.isTrue() || f2.isTrue()) followed by a call of getTrue() whose result
is discarded without a return, so the statement has no effect and the
function falls through to building the or formula. -/
def SMTFormula.disjunction (f1 f2 : SMTFormula) : SMTFormula :=
  if f1.isFalse then f2
  else if f2.isFalse then f1
  else ⟨"(or " ++ f1.val ++ " " ++ f2.val ++ ")"⟩

/-- C9: evaluation at the failing input: with the true formula and the atom
p, neither argument is false and the first satisfies isTrue, yet
disjunction builds the or formula instead of returning getTrue, because
SMTFormula.cpp line 65 discards the result of getTrue(); the dual
conjunction line does annihilate a false argument to getFalse, witnessing
the intended algebra. -/
theorem smt_disjunction_true_not_annihilator :
    SMTFormula.getTrue.isTrue = true ∧
    (SMTFormula.mk "p").isFalse = false ∧
    SMTFormula.disjunction SMTFormula.getTrue (SMTFormula.mk "p") =
      SMTFormula.mk "(or true p)" ∧
    SMTFormula.disjunction SMTFormula.getTrue (SMTFormula.mk "p") ≠ SMTFormula.getTrue ∧
    SMTFormula.conjunction SMTFormula.getFalse (SMTFormula.mk "p") = SMTFormula.getFalse := by
  refine ⟨by decide, by decide, by decide, by decide, by decide⟩

/-- The saturation results (SaturationResult.hpp is not among the sources;
the enum is taken from spec section 6). -/
inductive SatResult where
  | REFUTATION
  | SATISFIABLE
  | UNKNOWN
  | TIME_LIMIT
  | MEMORY_LIMIT
deriving DecidableEq

/-- Modelled from the spec: the strategy record of the saturation driver
(spec sections 4.7 and 6); SaturationAlgorithm::saturate is pure virtual in
Saturation/SaturationAlgorithm.hpp line 45 and its implementation is not
among the sources.  The simplification chains and the generators stay
abstract collaborators. -/
structure DriverStrategy where
  complete : Bool
  timeLimit : Nat
  memoryLimit : Nat
  immediateSimplify : Clause → Option Clause
  forwardSimplify : Clause → Option Clause
  generate : Clause → List Clause

/-- Modelled from the spec: the driver state: the three clause containers,
the elapsed tick count and the used memory gauge (spec section 4.7). -/
structure DriverState where
  unprocessed : List Clause
  passive : List Clause
  active : List Clause
  elapsed : Nat
  memUsed : Nat

/-- Modelled from the spec: the given-clause loop of spec section 4.7 with
the budget check of section 5: on exhausted time or memory halt with the
matching limit result; pop an unprocessed clause, immediately simplify it
and push the survivor to Passive; with Unprocessed empty select from
Passive, forward-simplify, halt with REFUTATION on the empty clause,
otherwise activate and generate; with both queues empty halt with
SATISFIABLE under a complete strategy and UNKNOWN otherwise. -/
def saturate (stg : DriverStrategy) (st : DriverState) : SatResult :=
  if h1 : stg.timeLimit ≤ st.elapsed then .TIME_LIMIT
  else if stg.memoryLimit ≤ st.memUsed then .MEMORY_LIMIT
  else
    match st.unprocessed with
    | c :: rest =>
      match stg.immediateSimplify c with
      | none => saturate stg { st with unprocessed := rest, elapsed := st.elapsed + 1 }
      | some c2 =>
        saturate stg { st with unprocessed := rest, passive := st.passive ++ [c2],
                               elapsed := st.elapsed + 1 }
    | [] =>
      match st.passive with
      | [] => if stg.complete then .SATISFIABLE else .UNKNOWN
      | c :: restPassive =>
        match stg.forwardSimplify c with
        | none => saturate stg { st with passive := restPassive, elapsed := st.elapsed + 1 }
        | some c2 =>
          if c2.lits.isEmpty then .REFUTATION
          else
            saturate stg { st with passive := restPassive,
                                   active := st.active ++ [c2],
                                   unprocessed := stg.generate c2,
                                   memUsed := st.memUsed + (stg.generate c2).length,
                                   elapsed := st.elapsed + 1 }
termination_by stg.timeLimit - st.elapsed
decreasing_by all_goals omega

theorem saturate_sat_aux (stg : DriverStrategy) :
    ∀ (n : Nat) (st : DriverState), stg.timeLimit - st.elapsed ≤ n →
      saturate stg st = .SATISFIABLE → stg.complete = true := by
  intro n
  induction n with
  | zero =>
    intro st hn h
    rw [saturate.eq_def, dif_pos (by omega)] at h
    exact absurd h (by decide)
  | succ n ih =>
    intro st hn h
    rw [saturate.eq_def] at h
    split at h
    · exact absurd h (by decide)
    · rename_i h1
      split at h
      · exact absurd h (by decide)
      · rename_i h2
        split at h
        · rename_i c rest hu
          split at h
          · exact ih _ (by show stg.timeLimit - (st.elapsed + 1) ≤ n; omega) h
          · exact ih _ (by show stg.timeLimit - (st.elapsed + 1) ≤ n; omega) h
        · rename_i hu
          split at h
          · split at h
            · assumption
            · exact absurd h (by decide)
          · rename_i c restPassive hp
            split at h
            · exact ih _ (by show stg.timeLimit - (st.elapsed + 1) ≤ n; omega) h
            · split at h
              · exact absurd h (by decide)
              · exact ih _ (by show stg.timeLimit - (st.elapsed + 1) ≤ n; omega) h

theorem saturate_unknown_aux (stg : DriverStrategy) :
    ∀ (n : Nat) (st : DriverState), stg.timeLimit - st.elapsed ≤ n →
      saturate stg st = .UNKNOWN → stg.complete = false := by
  intro n
  induction n with
  | zero =>
    intro st hn h
    rw [saturate.eq_def, dif_pos (by omega)] at h
    exact absurd h (by decide)
  | succ n ih =>
    intro st hn h
    rw [saturate.eq_def] at h
    split at h
    · exact absurd h (by decide)
    · rename_i h1
      split at h
      · exact absurd h (by decide)
      · rename_i h2
        split at h
        · rename_i c rest hu
          split at h
          · exact ih _ (by show stg.timeLimit - (st.elapsed + 1) ≤ n; omega) h
          · exact ih _ (by show stg.timeLimit - (st.elapsed + 1) ≤ n; omega) h
        · rename_i hu
          split at h
          · split at h
            · exact absurd h (by decide)
            · rename_i hc
              exact Bool.eq_false_iff.mpr hc
          · rename_i c restPassive hp
            split at h
            · exact ih _ (by show stg.timeLimit - (st.elapsed + 1) ≤ n; omega) h
            · split at h
              · exact absurd h (by decide)
              · exact ih _ (by show stg.timeLimit - (st.elapsed + 1) ≤ n; omega) h

/-- Modelled from the spec: derivation of the empty clause by the driver
(spec section 4.7 steps 4 and 5): from the given state the loop reaches,
within budget and through its unprocessed-transfer, passive-selection and
activation steps, a selected clause whose forward simplification yields the
empty clause. -/
inductive DerivesEmpty (stg : DriverStrategy) : DriverState → Prop where
  | found : ∀ st c restPassive c2,
      ¬ stg.timeLimit ≤ st.elapsed → ¬ stg.memoryLimit ≤ st.memUsed →
      st.unprocessed = [] → st.passive = c :: restPassive →
      stg.forwardSimplify c = some c2 → c2.lits.isEmpty = true →
      DerivesEmpty stg st
  | stepDrop : ∀ st c rest,
      ¬ stg.timeLimit ≤ st.elapsed → ¬ stg.memoryLimit ≤ st.memUsed →
      st.unprocessed = c :: rest → stg.immediateSimplify c = none →
      DerivesEmpty stg { st with unprocessed := rest, elapsed := st.elapsed + 1 } →
      DerivesEmpty stg st
  | stepKeep : ∀ st c rest c2,
      ¬ stg.timeLimit ≤ st.elapsed → ¬ stg.memoryLimit ≤ st.memUsed →
      st.unprocessed = c :: rest → stg.immediateSimplify c = some c2 →
      DerivesEmpty stg { st with unprocessed := rest, passive := st.passive ++ [c2],
                                 elapsed := st.elapsed + 1 } →
      DerivesEmpty stg st
  | stepFwdDel : ∀ st c restPassive,
      ¬ stg.timeLimit ≤ st.elapsed → ¬ stg.memoryLimit ≤ st.memUsed →
      st.unprocessed = [] → st.passive = c :: restPassive →
      stg.forwardSimplify c = none →
      DerivesEmpty stg { st with passive := restPassive, elapsed := st.elapsed + 1 } →
      DerivesEmpty stg st
  | stepActivate : ∀ st c restPassive c2,
      ¬ stg.timeLimit ≤ st.elapsed → ¬ stg.memoryLimit ≤ st.memUsed →
      st.unprocessed = [] → st.passive = c :: restPassive →
      stg.forwardSimplify c = some c2 → ¬ c2.lits.isEmpty = true →
      DerivesEmpty stg { st with passive := restPassive,
                                 active := st.active ++ [c2],
                                 unprocessed := stg.generate c2,
                                 memUsed := st.memUsed + (stg.generate c2).length,
                                 elapsed := st.elapsed + 1 } →
      DerivesEmpty stg st

theorem saturate_refutation_aux (stg : DriverStrategy) :
    ∀ (n : Nat) (st : DriverState), stg.timeLimit - st.elapsed ≤ n →
      saturate stg st = .REFUTATION → DerivesEmpty stg st := by
  intro n
  induction n with
  | zero =>
    intro st hn h
    rw [saturate.eq_def, dif_pos (by omega)] at h
    exact absurd h (by decide)
  | succ n ih =>
    intro st hn h
    rw [saturate.eq_def] at h
    split at h
    · exact absurd h (by decide)
    · rename_i h1
      split at h
      · exact absurd h (by decide)
      · rename_i h2
        split at h
        · rename_i c rest hu
          split at h
          · rename_i hi
            exact DerivesEmpty.stepDrop st c rest h1 h2 hu hi
              (ih _ (by show stg.timeLimit - (st.elapsed + 1) ≤ n; omega) h)
          · rename_i c2 hi
            exact DerivesEmpty.stepKeep st c rest c2 h1 h2 hu hi
              (ih _ (by show stg.timeLimit - (st.elapsed + 1) ≤ n; omega) h)
        · rename_i hu
          split at h
          · split at h
            · exact absurd h (by decide)
            · exact absurd h (by decide)
          · rename_i c restPassive hp
            split at h
            · rename_i hf
              exact DerivesEmpty.stepFwdDel st c restPassive h1 h2 hu hp hf
                (ih _ (by show stg.timeLimit - (st.elapsed + 1) ≤ n; omega) h)
            · rename_i c2 hf
              split at h
              · rename_i hemp
                exact DerivesEmpty.found st c restPassive c2 h1 h2 hu hp hf hemp
              · rename_i hemp
                exact DerivesEmpty.stepActivate st c restPassive c2 h1 h2 hu hp hf hemp
                  (ih _ (by show stg.timeLimit - (st.elapsed + 1) ≤ n; omega) h)

theorem derivesEmpty_saturate (stg : DriverStrategy) (st : DriverState)
    (hd : DerivesEmpty stg st) : saturate stg st = .REFUTATION := by
  induction hd with
  | found st c restPassive c2 h1 h2 hu hp hf hemp =>
    rw [saturate.eq_def, dif_neg h1, if_neg h2]
    simp [hu, hp, hf, hemp]
  | stepDrop st c rest h1 h2 hu hi hd2 ih =>
    rw [saturate.eq_def, dif_neg h1, if_neg h2]
    simp only [hu, hi]
    exact ih
  | stepKeep st c rest c2 h1 h2 hu hi hd2 ih =>
    rw [saturate.eq_def, dif_neg h1, if_neg h2]
    simp only [hu, hi]
    exact ih
  | stepFwdDel st c restPassive h1 h2 hu hp hf hd2 ih =>
    rw [saturate.eq_def, dif_neg h1, if_neg h2]
    simp only [hu, hp, hf]
    simp only [hu] at ih
    exact ih
  | stepActivate st c restPassive c2 h1 h2 hu hp hf hemp hd2 ih =>
    rw [saturate.eq_def, dif_neg h1, if_neg h2]
    simp only [hu, hp, hf, if_neg hemp]
    exact ih

/-- C7: a saturation run returns exactly one of the five results:
TIME_LIMIT on an exhausted time budget, MEMORY_LIMIT on an exhausted
memory budget, SATISFIABLE when both queues are empty within budget under
a completeness-preserving strategy and UNKNOWN under an incomplete one,
with SATISFIABLE only ever returned under a complete strategy and UNKNOWN
only under an incomplete one; and REFUTATION exactly when the empty clause
is derived: immediately when, within budget, the selected passive clause
forward-simplifies to the empty clause, and in general if and only if the
run derives the empty clause. -/
theorem saturate_result_characterisation (stg : DriverStrategy) (st : DriverState) :
    (saturate stg st = .REFUTATION ∨ saturate stg st = .SATISFIABLE ∨
     saturate stg st = .UNKNOWN ∨ saturate stg st = .TIME_LIMIT ∨
     saturate stg st = .MEMORY_LIMIT) ∧
    (stg.timeLimit ≤ st.elapsed → saturate stg st = .TIME_LIMIT) ∧
    (st.elapsed < stg.timeLimit → stg.memoryLimit ≤ st.memUsed →
      saturate stg st = .MEMORY_LIMIT) ∧
    (st.elapsed < stg.timeLimit → st.memUsed < stg.memoryLimit →
      st.unprocessed = [] → st.passive = [] →
      saturate stg st = (if stg.complete then .SATISFIABLE else .UNKNOWN)) ∧
    (saturate stg st = .SATISFIABLE → stg.complete = true) ∧
    (saturate stg st = .UNKNOWN → stg.complete = false) ∧
    (st.elapsed < stg.timeLimit → st.memUsed < stg.memoryLimit →
      st.unprocessed = [] → ∀ c restPassive c2, st.passive = c :: restPassive →
      stg.forwardSimplify c = some c2 → c2.lits = [] →
      saturate stg st = .REFUTATION) ∧
    (saturate stg st = .REFUTATION ↔ DerivesEmpty stg st) := by
  refine ⟨?_, ?_, ?_, ?_, ?_, ?_, ?_, ?_⟩
  · rcases h : saturate stg st with _ | _ | _ | _ | _ <;> tauto
  · intro h
    rw [saturate.eq_def]
    simp [h]
  · intro h1 h2
    rw [saturate.eq_def, dif_neg (by omega)]
    simp [h2]
  · intro h1 h2 h3 h4
    rw [saturate.eq_def, dif_neg (by omega), if_neg (by omega)]
    rw [h3, h4]
  · exact saturate_sat_aux stg (stg.timeLimit - st.elapsed) st le_rfl
  · exact saturate_unknown_aux stg (stg.timeLimit - st.elapsed) st le_rfl
  · intro h1 h2 h3 c restPassive c2 h4 h5 h6
    rw [saturate.eq_def, dif_neg (by omega), if_neg (by omega)]
    simp [h3, h4, h5, h6]
  · exact ⟨saturate_refutation_aux stg (stg.timeLimit - st.elapsed) st le_rfl,
      derivesEmpty_saturate stg st⟩

/-- An input clause for the driver witness. -/
def exDrvClause : Clause := .mk [exLit] .transparent (.input 3)

/-- A complete strategy for the driver witness. -/
def exStg : DriverStrategy :=
  { complete := true, timeLimit := 5, memoryLimit := 5,
    immediateSimplify := fun c => some c, forwardSimplify := fun c => some c,
    generate := fun _ => [] }

/-- The drained driver state of the witness. -/
def exSt : DriverState :=
  { unprocessed := [], passive := [], active := [exDrvClause], elapsed := 0, memUsed := 0 }

/-- The empty clause for the driver witness. -/
def exEmptyCl : Clause := .mk [] .transparent (.input 4)

/-- A driver state about to select a clause that forward-simplifies to the
empty clause. -/
def exStRef : DriverState :=
  { unprocessed := [], passive := [exEmptyCl], active := [], elapsed := 0, memUsed := 0 }

theorem saturate_result_characterisation_witness :
    0 < exStg.timeLimit ∧ saturate exStg exSt = .SATISFIABLE ∧
    saturate exStg exStRef = .REFUTATION := by
  refine ⟨by decide, ?_, ?_⟩
  · have h := (saturate_result_characterisation exStg exSt).2.2.2.1
      (by decide) (by decide) rfl rfl
    simpa [exStg] using h
  · exact (saturate_result_characterisation exStg exStRef).2.2.2.2.2.2.1
      (by decide) (by decide) rfl exEmptyCl [] exEmptyCl rfl rfl rfl
